import Mathlib

/-!
Shallow embedding of the Trillian map server (the RPC orchestration layer:
index validation, write-revision assertion, map initialisation, the read
paths with and without proofs, and the path-preload optimisation) together
with the biased entrypoint chooser of the load generator, and theorems
checking the claims of the specification about them.

Collaborator components that the server consumes (the storage gateway, the
sparse Merkle tree reader and writer, the signer) are not part of the
embedded source files; where their behaviour matters they are modelled from
the contracts in the specification, and the definitions say so explicitly.
-/

/-- Byte strings are modelled as lists of naturals (one per byte). -/
abbrev Bytes := List Nat

/-- The status code a caller observes on an error.  An error built with
status.Errorf carries an explicit code; a plain formatted error carries no
code and is surfaced to RPC callers as unknown. -/
inductive Code where
  | invalidArgument
  | failedPrecondition
  | alreadyExists
  | unknown
  deriving DecidableEq

/-- Errors produced by the storage gateway collaborator.  Modelled from the
spec: sections 4.B and 7 name a tree-needs-init sentinel for a tree with no
stored root and a not-found outcome for an absent revision. -/
inductive TxError where
  | treeNeedsInit
  | notFound
  deriving DecidableEq

/-- Errors returned by the map server methods, recording the constructor
site and its numeric details.  negativeRevision models the plain fmt.Errorf
rejection of a negative revision, which attaches no status code; the other
server-built constructors model status.Errorf calls.  storageErr carries an
error propagated from the storage collaborator together with the code the
server wraps it with (unknown when it is returned or fmt.Errorf-wrapped
without a code). -/
inductive MapError where
  | invalidIndexLength (pos got want : Nat)
  | duplicateIndex (pos : Nat)
  | negativeRevision (rev : Int)
  | revisionMismatch (assertRev : Int)
  | alreadyInitialised
  | storageErr (c : Code) (e : TxError)
  deriving DecidableEq

/-- The status code each error surfaces with. -/
def MapError.code : MapError → Code
  | .invalidIndexLength _ _ _ => .invalidArgument
  | .duplicateIndex _ => .invalidArgument
  | .negativeRevision _ => .unknown
  | .revisionMismatch _ => .failedPrecondition
  | .alreadyInitialised => .alreadyExists
  | .storageErr c _ => c

/-- The loop of validateIndices: walk the indices in order carrying the set
of indices seen so far and the current zero-based position; reject an index
of the wrong length, then a duplicate of an earlier index. -/
def validateIndicesGo (indexSize : Nat) : List Bytes → Nat → List Bytes → Except MapError Unit
  | _, _, [] => .ok ()
  | seen, i, index :: rest =>
    if index.length ≠ indexSize then
      .error (.invalidIndexLength i index.length indexSize)
    else if index ∈ seen then
      .error (.duplicateIndex i)
    else
      validateIndicesGo indexSize (index :: seen) (i + 1) rest

/-- validateIndices confirms that all indices have the given size and that
there are no duplicates within the request. -/
def validateIndices (indexSize : Nat) (indices : List Bytes) : Except MapError Unit :=
  validateIndicesGo indexSize [] 0 indices

/-- A map hasher: its output size in bytes and its leaf and empty-subtree
hash functions, both domain separated by the tree id. -/
structure MapHasher where
  size : Nat
  hashLeaf : Int → Bytes → Bytes → Bytes
  hashEmpty : Int → Bytes → Nat → Bytes

/-- The tree depth of the hasher: eight bits per index byte. -/
def MapHasher.bitLen (h : MapHasher) : Nat := 8 * h.size

/-- A map leaf record. -/
structure MapLeaf where
  index : Bytes
  leafValue : Bytes
  extraData : Bytes
  leafHash : Bytes
  deriving DecidableEq

/-- The data portion of a signed map root. -/
structure MapRootV1 where
  rootHash : Bytes
  timestampNanos : Nat
  revision : Nat
  metadata : Bytes
  deriving DecidableEq

/-- The signed wire envelope over a serialized MapRootV1.  The spec requires
the binary round trip to be bit exact, so the envelope is modelled as holding
the root data itself; unmarshalling is the projection. -/
structure SignedMapRoot where
  mapRoot : MapRootV1
  deriving DecidableEq

/-- The internal update primitive fed to the sparse Merkle tree writer. -/
structure HashKeyValue where
  hashedKey : Bytes
  hashedValue : Bytes
  deriving DecidableEq

/-- One entry of a read-with-proof response: a leaf and its inclusion path. -/
structure MapLeafInclusion where
  leaf : MapLeaf
  inclusion : List Bytes
  deriving DecidableEq

/-- The response of the read-with-proof calls. -/
structure GetMapLeavesResponse where
  mapLeafInclusion : List MapLeafInclusion
  mapRoot : SignedMapRoot
  deriving DecidableEq

/-- A SetLeaves request: the leaf batch, the root metadata, and the expected
write revision (zero meaning no assertion). -/
structure SetMapLeavesRequest where
  mapId : Int
  leaves : List MapLeaf
  metadata : Bytes
  revision : Int
  deriving DecidableEq

/-- The server options: single-transaction mode and its large-preload
performance workaround. -/
structure TrillianMapServerOptions where
  useSingleTransaction : Bool
  useLargePreload : Bool
  deriving DecidableEq

/-- The committed contents of the store of one tree: the signed roots in the
order they were stored, and the leaf writes tagged with the revision at
which each was written. -/
structure Storage where
  roots : List SignedMapRoot
  leaves : List (Nat × MapLeaf)
  deriving DecidableEq

/-- Last element of a root list (the most recently stored root). -/
def lastRoot? : List SignedMapRoot → Option SignedMapRoot
  | [] => none
  | [r] => some r
  | _ :: r :: rest => lastRoot? (r :: rest)

/-- Modelled from the spec: the storage gateway latest_signed_map_root read,
with the tree-needs-init sentinel when no root has been stored (sections
4.B and 7). -/
def Storage.latestSignedMapRootE (s : Storage) : Except TxError SignedMapRoot :=
  match lastRoot? s.roots with
  | none => .error .treeNeedsInit
  | some r => .ok r

/-- Find the stored root whose MapRootV1 revision equals the requested one. -/
def findRootAt (rev : Int) : List SignedMapRoot → Option SignedMapRoot
  | [] => none
  | r :: rest => if (r.mapRoot.revision : Int) = rev then some r else findRootAt rev rest

/-- Modelled from the spec: the storage gateway get_signed_map_root(rev) read
(section 4.B), a not-found outcome when the revision is absent (section 7). -/
def Storage.getSignedMapRootE (s : Storage) (rev : Int) : Except TxError SignedMapRoot :=
  match findRootAt rev s.roots with
  | none => .error .notFound
  | some r => .ok r

/-- Modelled from the spec: the write_revision of a read-write transaction is the
previous revision plus one (section 9, open question note). -/
def Storage.writeRevisionE (s : Storage) : Except TxError Int :=
  match lastRoot? s.roots with
  | none => .error .treeNeedsInit
  | some r => .ok ((r.mapRoot.revision : Int) + 1)

/-- Modelled from the spec: the read_revision of a transaction is the highest
revision visible at its start (section 4.B). -/
def Storage.readRevisionE (s : Storage) : Except TxError Int :=
  match lastRoot? s.roots with
  | none => .error .treeNeedsInit
  | some r => .ok (r.mapRoot.revision : Int)

/-- The most recent write at revision at most rev whose leaf sits at the
given index; writes later in the list are more recent. -/
def leafAtRec (rev : Int) (idx : Bytes) : List (Nat × MapLeaf) → Option MapLeaf
  | [] => none
  | (r, l) :: rest =>
    match leafAtRec rev idx rest with
    | some l2 => some l2
    | none => if (r : Int) ≤ rev ∧ l.index = idx then some l else none

/-- Modelled from the spec: the leaf visible at (rev, index) is the most
recent value written at revision at most rev, absent otherwise (section 3,
invariant 2); the storage get_leaves omits absent indices (section 4.B). -/
def Storage.leafAt (s : Storage) (rev : Int) (idx : Bytes) : Option MapLeaf :=
  leafAtRec rev idx s.leaves

/-- The environment of one request: the tree id and hasher looked up from
the admin store (the lookup is modelled as succeeding), the server options,
the clock value observed for the new root, and the sparse Merkle tree
collaborators modelled from the spec: a deterministic writer root over the
input batch (section 4.D) and a per-index inclusion path at a revision
(section 4.C). -/
structure MapServerEnv where
  treeId : Int
  hasher : MapHasher
  opts : TrillianMapServerOptions
  timestampNanos : Nat
  smtRoot : List HashKeyValue → Bytes
  proofAt : Int → Bytes → List Bytes

/-- Go conversion uint64(x) of an int64 value. -/
def uint64OfInt64 (i : Int) : Nat := (i % (2 : Int) ^ 64).toNat

/-- Go conversion int64(x) of a uint64 value. -/
def int64OfUint64 (n : Nat) : Int := if n < 2 ^ 63 then (n : Int) else (n : Int) - 2 ^ 64

/-- makeSignedMapRoot builds the MapRootV1 for the new revision and signs
it; the signer collaborator is modelled from the spec as wrapping the root
data (section 6). -/
def makeSignedMapRoot (env : MapServerEnv) (rootHash : Bytes) (revision : Int) (meta : Bytes) :
    SignedMapRoot :=
  ⟨{ rootHash := rootHash, timestampNanos := env.timestampNanos,
     revision := uint64OfInt64 revision, metadata := meta }⟩

/-- Association-list lookup keyed by byte strings, modelling a Go map whose
entries were inserted with pairwise distinct keys. -/
def lookupA {α : Type} (k : Bytes) : List (Bytes × α) → Option α
  | [] => none
  | (k2, v) :: rest => if k2 = k then some v else lookupA k rest

/-- The empty leaf substituted for a requested index with no stored leaf:
only the index field is set. -/
def emptyMapLeaf (idx : Bytes) : MapLeaf :=
  { index := idx, leafValue := [], extraData := [], leafHash := [] }

/-- The leaves returned by the storage fetch, keyed by their index field. -/
def storedLeavesByIndex (s : Storage) (rev : Int) (indices : List Bytes) :
    List (Bytes × MapLeaf) :=
  (indices.filterMap (s.leafAt rev)).map (fun l => (l.index, l))

/-- The leavesByIndex map of getLeavesByRevision: the leaves fetched from
storage for the requested indices keyed by their index field, then an empty
leaf added for every requested index that was not returned. -/
def buildLeavesByIndex (s : Storage) (rev : Int) (indices : List Bytes) :
    List (Bytes × MapLeaf) :=
  storedLeavesByIndex s rev indices ++
    (indices.filter (fun idx => (lookupA idx (storedLeavesByIndex s rev indices)).isNone)).map
      (fun idx => (idx, emptyMapLeaf idx))

/-- The storage revisions used by the two concurrent fetches of a
read-with-proof call: the revision passed to the leaf fetch and the
revision passed to the batch inclusion-proof fetch. -/
structure ReadTrace where
  leafFetchRev : Int
  proofFetchRev : Int
  deriving DecidableEq

/-- The sentinel revision used internally by GetLeaves. -/
def mostRecentRevision : Int := -1

/-- The shared body of the read-with-proof calls: validate the indices,
fetch the target signed root (latest when the revision is negative,
otherwise at the requested revision), replace the revision by the one
recorded in the root, fetch leaves and proofs at that revision, substitute
empty leaves for missing indices, and pair each requested index with its
leaf and proof in request order.  The trace records the revisions the two
fetches were issued at. -/
def getLeavesByRevisionT (env : MapServerEnv) (s : Storage) (indices : List Bytes)
    (revision : Int) : Except MapError (GetMapLeavesResponse × ReadTrace) :=
  match validateIndices env.hasher.size indices with
  | .error e => .error e
  | .ok () =>
    match (if revision < 0 then s.latestSignedMapRootE else s.getSignedMapRootE revision) with
    | .error e => .error (.storageErr .unknown e)
    | .ok root =>
      let rev := int64OfUint64 root.mapRoot.revision
      let leavesByIndex := buildLeavesByIndex s rev indices
      let proofs := indices.map (fun idx => (idx, env.proofAt rev idx))
      let inclusions := indices.map (fun idx =>
        ({ leaf := (lookupA idx leavesByIndex).getD (emptyMapLeaf [])
           inclusion := (lookupA idx proofs).getD [] } : MapLeafInclusion))
      .ok ({ mapLeafInclusion := inclusions, mapRoot := root },
           { leafFetchRev := rev, proofFetchRev := rev })

/-- The GetLeavesByRevision RPC: reject a negative revision with a plain
formatted error, then run the shared read body. -/
def GetLeavesByRevision (env : MapServerEnv) (s : Storage) (indices : List Bytes)
    (revision : Int) : Except MapError GetMapLeavesResponse :=
  if revision < 0 then .error (.negativeRevision revision)
  else Except.map Prod.fst (getLeavesByRevisionT env s indices revision)

/-- The GetLeaves RPC: the shared read body pinned to the latest revision. -/
def GetLeaves (env : MapServerEnv) (s : Storage) (indices : List Bytes) :
    Except MapError GetMapLeavesResponse :=
  Except.map Prod.fst (getLeavesByRevisionT env s indices mostRecentRevision)

/-- The GetLeavesByRevisionNoProof RPC: reject a negative revision with a
plain formatted error, validate the indices, fetch the stored leaves at the
requested revision, and blank the leaf hash of every returned leaf because
SetLeaves does not supply it. -/
def GetLeavesByRevisionNoProof (env : MapServerEnv) (s : Storage) (indices : List Bytes)
    (revision : Int) : Except MapError (List MapLeaf) :=
  if revision < 0 then .error (.negativeRevision revision)
  else
    match validateIndices env.hasher.size indices with
    | .error e => .error e
    | .ok () =>
      .ok ((indices.filterMap (s.leafAt revision)).map (fun l => { l with leafHash := [] }))

/-- The GetSignedMapRootByRevision RPC: reject a negative revision with a
plain formatted error, then read the root stored at the revision. -/
def GetSignedMapRootByRevision (_env : MapServerEnv) (s : Storage) (revision : Int) :
    Except MapError SignedMapRoot :=
  if revision < 0 then .error (.negativeRevision revision)
  else
    match s.getSignedMapRootE revision with
    | .error e => .error (.storageErr .unknown e)
    | .ok r => .ok r

/-- getWriteRevision: the revision this transaction will be written at; if
assertRev is non-zero and differs from it, fail with failed-precondition. -/
def getWriteRevision (s : Storage) (assertRev : Int) : Except MapError Int :=
  match s.writeRevisionE with
  | .error e => .error (.storageErr .unknown e)
  | .ok writeRev =>
    if assertRev ≠ 0 ∧ writeRev ≠ assertRev then .error (.revisionMismatch assertRev)
    else .ok writeRev

/-- A sparse Merkle tree node id: the bit prefix of an index, the depth
being the length.  Modelled from the spec, section 4.C. -/
abbrev NodeID := List Bool

/-- Flip the last bit of a prefix, giving the sibling id at that depth. -/
def flipLast : List Bool → List Bool
  | [] => []
  | [b] => [!b]
  | b :: c :: rest => b :: flipLast (c :: rest)

/-- The bits of one byte, most significant first. -/
def byteBits (b : Nat) : List Bool :=
  [b / 128 % 2 == 1, b / 64 % 2 == 1, b / 32 % 2 == 1, b / 16 % 2 == 1,
   b / 8 % 2 == 1, b / 4 % 2 == 1, b / 2 % 2 == 1, b % 2 == 1]

/-- The bit string of an index. -/
def bytesToBits : Bytes → List Bool
  | [] => []
  | b :: rest => byteBits b ++ bytesToBits rest

/-- Modelled from the spec: the sibling node ids along the root-to-leaf
path of an index (section 4.C): at each depth the prefix of that length
with its last bit flipped. -/
def siblings (bits : List Bool) : List NodeID :=
  (List.range bits.length).map (fun d => flipLast (bits.take (d + 1)))

/-- Concatenation of the lists produced by f over a list. -/
def flatMapL {α β : Type} (f : α → List β) : List α → List β
  | [] => []
  | a :: rest => f a ++ flatMapL f rest

/-- Everything the preload producers emit: for each input hashed key, the
sibling ids along its path, in per-key order. -/
def allSiblings (hkv : List HashKeyValue) : List NodeID :=
  flatMapL (fun i => siblings (bytesToBits i.hashedKey)) hkv

/-- The consumer loop of calcAllSiblingsParallel: keep the first arrival of
each node id, dropping ids already seen. -/
def dedupConsume : List NodeID → List NodeID → List NodeID
  | _, [] => []
  | seen, n :: rest =>
    if n ∈ seen then dedupConsume seen rest
    else n :: dedupConsume (n :: seen) rest

/-- calcAllSiblingsParallel: producers emit, for each input hashed key, the
sibling ids along its path into a bounded channel; the arrival argument
models the order in which the consumer receives them (any interleaving of
the per-key lists, hence in the theorems any permutation of allSiblings);
the consumer deduplicates, keeping first arrivals.  The tree depth argument
only sizes a buffer in the source. -/
def calcAllSiblingsParallel (_treeDepth : Nat) (_hkv : List HashKeyValue)
    (arrival : List NodeID) : List NodeID :=
  dedupConsume [] arrival

/-- doPreload: read the read revision of the transaction and issue one
get-merkle-nodes call for every sibling id of the input batch; the result
lists the get-merkle-nodes calls made, as revision paired with the node-id
argument. -/
def doPreload (s : Storage) (treeDepth : Nat) (hkv : List HashKeyValue)
    (arrival : List NodeID) : Except MapError (List (Int × List NodeID)) :=
  match s.readRevisionE with
  | .error e => .error (.storageErr .unknown e)
  | .ok readRev => .ok [(readRev, calcAllSiblingsParallel treeDepth hkv arrival)]

/-- The writes a transaction body accumulates: the tx.Set calls made by
writeLeaves, the get-merkle-nodes calls made by the preload, and the roots
passed to store_signed_map_root. -/
structure TxWrites where
  setCalls : List (Bytes × MapLeaf)
  preloadCalls : List (Int × List NodeID)
  storedRoots : List SignedMapRoot
  deriving DecidableEq

/-- updateTree: preload when both the single-transaction and large-preload
options are set, run the sparse Merkle tree writer over the batch, sign the
new root at the write revision, and store it. -/
def updateTree (env : MapServerEnv) (s : Storage) (hkv : List HashKeyValue)
    (metadata : Bytes) (rev : Int) (arrival : List NodeID) :
    Except MapError (SignedMapRoot × TxWrites) :=
  match (if env.opts.useSingleTransaction && env.opts.useLargePreload then
           doPreload s env.hasher.bitLen hkv arrival
         else .ok []) with
  | .error e => .error e
  | .ok preloadCalls =>
    let rootHash := env.smtRoot hkv
    let newRoot := makeSignedMapRoot env rootHash rev metadata
    .ok (newRoot, { setCalls := [], preloadCalls := preloadCalls, storedRoots := [newRoot] })

/-- The leaf batch with each leaf hash overwritten by the hasher, as
SetLeaves does before building the update batch. -/
def leavesWithHashes (env : MapServerEnv) (leaves : List MapLeaf) : List MapLeaf :=
  leaves.map (fun l => { l with leafHash := env.hasher.hashLeaf env.treeId l.index l.leafValue })

/-- The hashed key/value batch extracted from the rewritten leaves. -/
def hkvOf (env : MapServerEnv) (leaves : List MapLeaf) : List HashKeyValue :=
  (leavesWithHashes env leaves).map (fun l => ({ hashedKey := l.index, hashedValue := l.leafHash } : HashKeyValue))

/-- The body SetLeaves runs inside the read-write transaction: compute the
write revision (asserting the expected revision), write the leaves, then
update the tree and store the new signed root.  On success it reports the
new root, the write revision and the accumulated writes. -/
def setLeavesTxBody (env : MapServerEnv) (s : Storage) (leaves : List MapLeaf)
    (hkv : List HashKeyValue) (metadata : Bytes) (assertRev : Int) (arrival : List NodeID) :
    Except MapError (SignedMapRoot × Int × TxWrites) :=
  match getWriteRevision s assertRev with
  | .error e => .error e
  | .ok writeRev =>
    let setCalls := leaves.map (fun l => (l.index, l))
    match updateTree env s hkv metadata writeRev arrival with
    | .error e => .error e
    | .ok (newRoot, w) => .ok (newRoot, writeRev, { w with setCalls := setCalls ++ w.setCalls })

/-- Committing a transaction applies its writes: roots are appended and the
leaf writes land at the write revision. -/
def applyWrites (s : Storage) (writeRev : Int) (w : TxWrites) : Storage :=
  { roots := s.roots ++ w.storedRoots,
    leaves := s.leaves ++ w.setCalls.map (fun p => (uint64OfInt64 writeRev, p.2)) }

/-- The SetLeaves RPC: validate the leaf indices, hash the leaves, then run
the transaction body; an error from the body rolls the transaction back, so
the storage is unchanged, while success commits the writes. -/
def SetLeaves (env : MapServerEnv) (s : Storage) (req : SetMapLeavesRequest)
    (arrival : List NodeID) : Except MapError SignedMapRoot × Storage :=
  match validateIndices env.hasher.size (req.leaves.map MapLeaf.index) with
  | .error e => (.error e, s)
  | .ok () =>
    match setLeavesTxBody env s (leavesWithHashes env req.leaves) (hkvOf env req.leaves)
        req.metadata req.revision arrival with
    | .error e => (.error e, s)
    | .ok (newRoot, writeRev, w) => (.ok newRoot, applyWrites s writeRev w)

/-- The InitMap RPC: inside a read-write transaction, check that no signed
root is stored yet (the tree-needs-init sentinel is normal control flow
here, any other storage error is wrapped failed-precondition), then build
the revision-zero root over the empty-subtree hash of a zero index at full
depth, sign it with nil metadata and store it. -/
def InitMap (env : MapServerEnv) (s : Storage) : Except MapError SignedMapRoot × Storage :=
  match s.latestSignedMapRootE with
  | .ok _ => (.error .alreadyInitialised, s)
  | .error .treeNeedsInit =>
    let rootHash := env.hasher.hashEmpty env.treeId (List.replicate env.hasher.size 0)
      env.hasher.bitLen
    let rev0Root := makeSignedMapRoot env rootHash 0 []
    (.ok rev0Root, { s with roots := s.roots ++ [rev0Root] })
  | .error e => (.error (.storageErr .failedPrecondition e), s)

/-- The five map RPC entrypoints the load generator drives. -/
inductive MapEntrypointName where
  | getLeavesName
  | getLeavesRevName
  | setLeavesName
  | getSMRName
  | getSMRRevName
  deriving DecidableEq

/-- The entrypoints in the order the chooser walks them. -/
def mapEntrypoints : List MapEntrypointName :=
  [.getLeavesName, .getLeavesRevName, .setLeavesName, .getSMRName, .getSMRRevName]

/-- The bias of the load generator over entrypoints: a per-entrypoint weight (a
Go map of int, absent entries reading zero) and the odds of issuing a
deliberately invalid operation. -/
structure MapBias where
  bias : MapEntrypointName → Int
  invalidChance : MapEntrypointName → Int

/-- The lazily computed total of the five per-entrypoint biases. -/
def MapBias.total (hb : MapBias) : Int := (mapEntrypoints.map hb.bias).sum

/-- The selection loop of choose: subtract the bias of each entrypoint in order
from the drawn value and return the entrypoint at which it drops below
zero; none models falling off the end into the out-of-range panic. -/
def chooseLoop (bias : MapEntrypointName → Int) :
    Int → List MapEntrypointName → Option MapEntrypointName
  | _, [] => none
  | which, ep :: rest =>
    if which - bias ep < 0 then some ep else chooseLoop bias (which - bias ep) rest

/-- choose picks an operation according to the biases; the which argument
models the random draw r.Intn(total), a value in [0, total). -/
def MapBias.choose (hb : MapBias) (which : Int) : Option MapEntrypointName :=
  chooseLoop hb.bias which mapEntrypoints

/-- A one-byte hasher used for the concrete evaluations. -/
def hasher0 : MapHasher :=
  { size := 1,
    hashLeaf := fun _ idx v => [(idx.headD 0 + v.headD 0) % 256],
    hashEmpty := fun _ _ depth => [depth % 256] }

/-- A concrete environment with both preload options off. -/
def env0 : MapServerEnv :=
  { treeId := 7, hasher := hasher0,
    opts := { useSingleTransaction := false, useLargePreload := false },
    timestampNanos := 1000,
    smtRoot := fun _ => [1],
    proofAt := fun _ _ => List.replicate 8 [0] }

/-- The concrete environment with single-transaction and large-preload set. -/
def envPreload : MapServerEnv :=
  { env0 with opts := { useSingleTransaction := true, useLargePreload := true } }

/-- A concrete stored root at revision zero. -/
def root0 : SignedMapRoot :=
  ⟨{ rootHash := [8], timestampNanos := 0, revision := 0, metadata := [] }⟩

/-- A concrete stored leaf at index [5]. -/
def leaf0 : MapLeaf := { index := [5], leafValue := [9], extraData := [3], leafHash := [7] }

/-- A concrete store holding root0 and leaf0. -/
def storage0 : Storage := { roots := [root0], leaves := [(0, leaf0)] }

/-- A concrete store with nothing in it. -/
def storageEmpty : Storage := { roots := [], leaves := [] }

/-- A concrete one-entry update batch. -/
def hkv0 : List HashKeyValue := [{ hashedKey := [5], hashedValue := [7] }]

/-- A concrete bias giving every entrypoint weight one. -/
def bias0 : MapBias := { bias := fun _ => 1, invalidChance := fun _ => 0 }

/-- The concrete response storage0 produces for a proof read of index [5]
at revision zero. -/
def resp0 : GetMapLeavesResponse :=
  { mapLeafInclusion := [{ leaf := leaf0, inclusion := List.replicate 8 [0] }],
    mapRoot := root0 }

/-- The validation loop succeeds exactly when every remaining index has the
right length, the remaining indices are pairwise distinct and none of them
was already seen. -/
theorem validateIndicesGo_ok_iff (sz : Nat) (l : List Bytes) :
    ∀ (seen : List Bytes) (i : Nat),
      validateIndicesGo sz seen i l = .ok () ↔
        (∀ idx ∈ l, idx.length = sz) ∧ l.Nodup ∧ ∀ idx ∈ l, idx ∉ seen := by
  induction l with
  | nil =>
    intro seen i
    simp [validateIndicesGo]
  | cons a rest ih =>
    intro seen i
    simp only [validateIndicesGo]
    by_cases hlen : a.length ≠ sz
    · rw [if_pos hlen]
      constructor
      · intro h
        cases h
      · rintro ⟨hall, -, -⟩
        exact absurd (hall a (List.mem_cons_self a rest)) hlen
    · rw [if_neg hlen]
      push_neg at hlen
      by_cases hseen : a ∈ seen
      · rw [if_pos hseen]
        constructor
        · intro h
          cases h
        · rintro ⟨-, -, hnot⟩
          exact absurd hseen (hnot a (List.mem_cons_self a rest))
      · rw [if_neg hseen]
        rw [ih (a :: seen) (i + 1)]
        simp only [List.mem_cons, List.nodup_cons]
        constructor
        · rintro ⟨hlenr, hnd, hns⟩
          refine ⟨?_, ⟨?_, hnd⟩, ?_⟩
          · rintro idx (rfl | hidx)
            · exact hlen
            · exact hlenr idx hidx
          · intro hmem
            exact (hns a hmem) (Or.inl rfl)
          · rintro idx (rfl | hidx)
            · exact hseen
            · intro hc
              exact (hns idx hidx) (Or.inr hc)
        · rintro ⟨hlenall, ⟨hanr, hnd⟩, hnseen⟩
          refine ⟨fun idx hidx => hlenall idx (Or.inr hidx), hnd, ?_⟩
          rintro idx hidx (rfl | h2)
          · exact hanr hidx
          · exact (hnseen idx (Or.inr hidx)) h2

/-- When a clean prefix is followed by an offending index, the validation
loop reports the offending position: wrong length first, else duplication. -/
theorem validateIndicesGo_error_at (sz : Nat) (pre : List Bytes) :
    ∀ (seen : List Bytes) (i : Nat) (x : Bytes) (suf : List Bytes),
      (∀ y ∈ pre, y.length = sz) → pre.Nodup → (∀ y ∈ pre, y ∉ seen) →
      (x.length ≠ sz →
        validateIndicesGo sz seen i (pre ++ x :: suf)
          = .error (.invalidIndexLength (i + pre.length) x.length sz))
      ∧ (x.length = sz → x ∈ pre ∨ x ∈ seen →
        validateIndicesGo sz seen i (pre ++ x :: suf)
          = .error (.duplicateIndex (i + pre.length))) := by
  induction pre with
  | nil =>
    intro seen i x suf _ _ _
    constructor
    · intro hx
      simp [validateIndicesGo, hx]
    · intro hx hmem
      have hxseen : x ∈ seen := by
        rcases hmem with h | h
        · cases h
        · exact h
      simp [validateIndicesGo, hx, hxseen]
  | cons y pre2 ih =>
    intro seen i x suf hlen hnd hseen
    have hylen : y.length = sz := hlen y (List.mem_cons_self _ _)
    have hyseen : y ∉ seen := hseen y (List.mem_cons_self _ _)
    have hstep : validateIndicesGo sz seen i ((y :: pre2) ++ x :: suf)
        = validateIndicesGo sz (y :: seen) (i + 1) (pre2 ++ x :: suf) := by
      simp [validateIndicesGo, hylen, hyseen]
    have hpre2len : ∀ z ∈ pre2, z.length = sz := fun z hz => hlen z (List.mem_cons_of_mem _ hz)
    have hpre2nd : pre2.Nodup := (List.nodup_cons.mp hnd).2
    have hynot : y ∉ pre2 := (List.nodup_cons.mp hnd).1
    have hpre2seen : ∀ z ∈ pre2, z ∉ y :: seen := by
      intro z hz hc
      rcases List.mem_cons.mp hc with h1 | h2
      · exact hynot (h1 ▸ hz)
      · exact (hseen z (List.mem_cons_of_mem _ hz)) h2
    have harith : (i + 1) + pre2.length = i + (y :: pre2).length := by
      simp [List.length_cons]
      omega
    obtain ⟨ha, hb⟩ := ih (y :: seen) (i + 1) x suf hpre2len hpre2nd hpre2seen
    constructor
    · intro hx
      rw [hstep, ha hx, harith]
    · intro hx hmem
      have hmem2 : x ∈ pre2 ∨ x ∈ y :: seen := by
        rcases hmem with h1 | h2
        · rcases List.mem_cons.mp h1 with h3 | h4
          · exact Or.inr (List.mem_cons.mpr (Or.inl h3))
          · exact Or.inl h4
        · exact Or.inr (List.mem_cons.mpr (Or.inr h2))
      rw [hstep, hb hx hmem2, harith]

/-- Every error the validation loop produces carries the invalid-argument
status code. -/
theorem validateIndicesGo_error_code (sz : Nat) (l : List Bytes) :
    ∀ (seen : List Bytes) (i : Nat) (e : MapError),
      validateIndicesGo sz seen i l = .error e → e.code = .invalidArgument := by
  induction l with
  | nil =>
    intro seen i e h
    simp [validateIndicesGo] at h
  | cons a rest ih =>
    intro seen i e h
    simp only [validateIndicesGo] at h
    by_cases hlen : a.length ≠ sz
    · rw [if_pos hlen] at h
      injection h with h2
      rw [← h2]
      rfl
    · rw [if_neg hlen] at h
      by_cases hseen : a ∈ seen
      · rw [if_pos hseen] at h
        injection h with h2
        rw [← h2]
        rfl
      · rw [if_neg hseen] at h
        exact ih _ _ _ h

/-- C1: index validation succeeds exactly when every index in the request
has length hasher.size() and the indices are pairwise distinct; otherwise
it fails with an invalid-argument error naming the zero-based position of
the first offending index, the wrong-length form for a bad length and the
duplicate form at the second occurrence of a repeated index; SetLeaves
returns the validation error unchanged with the store untouched. -/
theorem validateIndices_spec (sz : Nat) (indices pre suf : List Bytes) (x : Bytes)
    (hlen : ∀ y ∈ pre, y.length = sz) (hnd : pre.Nodup) :
    (validateIndices sz indices = .ok () ↔
       (∀ idx ∈ indices, idx.length = sz) ∧ indices.Nodup)
    ∧ (x.length ≠ sz →
        validateIndices sz (pre ++ x :: suf)
          = .error (.invalidIndexLength pre.length x.length sz))
    ∧ (x.length = sz → x ∈ pre →
        validateIndices sz (pre ++ x :: suf) = .error (.duplicateIndex pre.length))
    ∧ (∀ e, validateIndices sz indices = .error e → e.code = .invalidArgument)
    ∧ (∀ (env : MapServerEnv) (s : Storage) (req : SetMapLeavesRequest)
         (arrival : List NodeID) (e : MapError),
         validateIndices env.hasher.size (req.leaves.map MapLeaf.index) = .error e →
         SetLeaves env s req arrival = (.error e, s)) := by
  obtain ⟨ha, hb⟩ := validateIndicesGo_error_at sz pre [] 0 x suf hlen hnd (by simp)
  refine ⟨?_, ?_, ?_, ?_, ?_⟩
  · constructor
    · intro h
      obtain ⟨h1, h2, -⟩ := (validateIndicesGo_ok_iff sz indices [] 0).mp h
      exact ⟨h1, h2⟩
    · rintro ⟨h1, h2⟩
      exact (validateIndicesGo_ok_iff sz indices [] 0).mpr ⟨h1, h2, by simp⟩
  · intro hx
    have h := ha hx
    rw [validateIndices, h]
    simp
  · intro hx hmem
    have h := hb hx (Or.inl hmem)
    rw [validateIndices, h]
    simp
  · intro e h
    exact validateIndicesGo_error_code sz indices [] 0 e h
  · intro env s req arrival e h
    simp only [SetLeaves, h]

/-- Concrete run of C1: the duplicated index [2] at position 1 is rejected
with the duplicate invalid-argument error at position 1. -/
theorem validateIndices_spec_witness :
    validateIndices 1 ([[2]] ++ [2] :: []) = .error (.duplicateIndex 1) :=
  (validateIndices_spec 1 [[2], [2]] [[2]] [] [2] (by decide) (by decide)).2.2.1 rfl
    (by decide)

/-- If the drawn value is below the sum of the biases over a nonempty list
of entrypoints, the selection loop returns one of them. -/
theorem chooseLoop_isSome (bias : MapEntrypointName → Int) :
    ∀ (l : List MapEntrypointName) (which : Int), l ≠ [] →
      which < (l.map bias).sum → (chooseLoop bias which l).isSome = true := by
  intro l
  induction l with
  | nil =>
    intro which h
    exact absurd rfl h
  | cons ep rest ih =>
    intro which _ hlt
    simp only [chooseLoop]
    by_cases hneg : which - bias ep < 0
    · rw [if_pos hneg]
      rfl
    · rw [if_neg hneg]
      push_neg at hneg
      have hsum : (List.map bias (ep :: rest)).sum = bias ep + (List.map bias rest).sum := by
        simp
      cases rest with
      | nil =>
        exfalso
        have h0 : (List.map bias ([] : List MapEntrypointName)).sum = 0 := by simp
        rw [hsum, h0] at hlt
        omega
      | cons b rest2 =>
        apply ih
        · simp
        · rw [hsum] at hlt
          omega

/-- C9: whenever the per-entrypoint biases sum to a positive total and the
random draw is in range (as r.Intn guarantees), choose returns one of the
five entrypoints, so the out-of-range panic branch is unreachable. -/
theorem mapBias_choose_in_range (hb : MapBias) (which : Int)
    (htotal : 0 < hb.total) (h0 : 0 ≤ which) (hlt : which < hb.total) :
    (∃ ep : MapEntrypointName, hb.choose which = some ep)
    ∧ ∀ ep : MapEntrypointName, ep ∈ mapEntrypoints := by
  constructor
  · have h := chooseLoop_isSome hb.bias mapEntrypoints which (by simp [mapEntrypoints]) hlt
    exact Option.isSome_iff_exists.mp h
  · intro ep
    cases ep <;> simp [mapEntrypoints]

/-- Concrete run of C9: with every bias one and a draw of 3 the chooser
returns an entrypoint rather than reaching the panic branch. -/
theorem mapBias_choose_in_range_witness :
    ∃ ep : MapEntrypointName, bias0.choose 3 = some ep :=
  (mapBias_choose_in_range bias0 3 (by decide) (by decide) (by decide)).1

/-- A nonempty root list has a last element. -/
theorem lastRoot?_ne_nil : ∀ (l : List SignedMapRoot), l ≠ [] → ∃ r, lastRoot? l = some r := by
  intro l
  induction l with
  | nil =>
    intro h
    exact absurd rfl h
  | cons a rest ih =>
    intro _
    cases rest with
    | nil => exact ⟨a, rfl⟩
    | cons b rest2 =>
      obtain ⟨r, hr⟩ := ih (by simp)
      exact ⟨r, hr⟩

/-- C3: InitMap fails already-exists when a signed root is already stored;
on a store with no root it stores and returns a signed root at revision 0
with empty metadata whose hash is the empty-subtree hash of a zero index of
hasher.size() bytes at depth hasher.bit_len(). -/
theorem initMap_spec (env : MapServerEnv) (s : Storage) :
    (s.roots ≠ [] →
       InitMap env s = (.error .alreadyInitialised, s)
       ∧ MapError.alreadyInitialised.code = .alreadyExists)
    ∧ (s.roots = [] →
       InitMap env s =
         (.ok ⟨{ rootHash := env.hasher.hashEmpty env.treeId
                     (List.replicate env.hasher.size 0) env.hasher.bitLen,
                 timestampNanos := env.timestampNanos, revision := 0, metadata := [] }⟩,
          { roots := [⟨{ rootHash := env.hasher.hashEmpty env.treeId
                             (List.replicate env.hasher.size 0) env.hasher.bitLen,
                         timestampNanos := env.timestampNanos, revision := 0,
                         metadata := [] }⟩],
            leaves := s.leaves })) := by
  constructor
  · intro hne
    obtain ⟨r, hr⟩ := lastRoot?_ne_nil s.roots hne
    constructor
    · simp only [InitMap, Storage.latestSignedMapRootE, hr]
    · rfl
  · intro hnil
    have hr : lastRoot? s.roots = none := by
      rw [hnil]
      rfl
    simp only [InitMap, Storage.latestSignedMapRootE, hr, makeSignedMapRoot, uint64OfInt64,
      hnil]
    rfl

/-- Concrete run of C3: initialising an empty store produces the
revision-zero root over the empty-subtree hash. -/
theorem initMap_spec_witness :
    InitMap env0 storageEmpty =
      (.ok ⟨{ rootHash := env0.hasher.hashEmpty env0.treeId
                  (List.replicate env0.hasher.size 0) env0.hasher.bitLen,
              timestampNanos := env0.timestampNanos, revision := 0, metadata := [] }⟩,
       { roots := [⟨{ rootHash := env0.hasher.hashEmpty env0.treeId
                          (List.replicate env0.hasher.size 0) env0.hasher.bitLen,
                      timestampNanos := env0.timestampNanos, revision := 0,
                      metadata := [] }⟩],
         leaves := storageEmpty.leaves }) :=
  (initMap_spec env0 storageEmpty).2 rfl

/-- C5 counterexample: at revision -1 the rejection is the plain formatted
error, which carries no status code and therefore does not surface as
invalid-argument, contradicting the claimed error kind. -/
theorem negativeRevision_counterexample :
    GetLeavesByRevision env0 storage0 [] (-1) = .error (.negativeRevision (-1))
    ∧ (MapError.negativeRevision (-1)).code ≠ Code.invalidArgument := by
  constructor
  · rfl
  · decide

/-- C5 amended: every negative-revision request to GetLeavesByRevision,
GetLeavesByRevisionNoProof and GetSignedMapRootByRevision fails before
touching storage (the result does not depend on the store or environment),
but with a plain formatted error surfacing as code unknown, not as an
invalid-argument status. -/
theorem negativeRevision_rejection (env env2 : MapServerEnv) (s s2 : Storage)
    (indices indices2 : List Bytes) (revision : Int) (h : revision < 0) :
    GetLeavesByRevision env s indices revision = .error (.negativeRevision revision)
    ∧ GetLeavesByRevisionNoProof env s indices revision = .error (.negativeRevision revision)
    ∧ GetSignedMapRootByRevision env s revision = .error (.negativeRevision revision)
    ∧ (MapError.negativeRevision revision).code = Code.unknown
    ∧ GetLeavesByRevision env s indices revision = GetLeavesByRevision env2 s2 indices2 revision
    ∧ GetSignedMapRootByRevision env s revision = GetSignedMapRootByRevision env2 s2 revision := by
  refine ⟨?_, ?_, ?_, rfl, ?_, ?_⟩ <;>
    simp [GetLeavesByRevision, GetLeavesByRevisionNoProof, GetSignedMapRootByRevision, h]

/-- Concrete run of the amended C5: revision -2 is rejected with the plain
error before any storage access. -/
theorem negativeRevision_rejection_witness :
    GetLeavesByRevisionNoProof env0 storage0 [[5]] (-2) = .error (.negativeRevision (-2)) :=
  (negativeRevision_rejection env0 env0 storage0 storage0 [[5]] [[5]] (-2) (by decide)).2.1

/-- C6: every leaf of a successful GetLeavesByRevisionNoProof response has
an empty leaf hash, and the response is exactly the stored leaves for the
requested indices with only the leaf-hash field blanked. -/
theorem noProof_strips_leafHash (env : MapServerEnv) (s : Storage) (indices : List Bytes)
    (revision : Int) (leaves : List MapLeaf)
    (h : GetLeavesByRevisionNoProof env s indices revision = .ok leaves) :
    (∀ l ∈ leaves, l.leafHash = ([] : Bytes))
    ∧ leaves
        = (indices.filterMap (s.leafAt revision)).map (fun l => { l with leafHash := [] }) := by
  by_cases hneg : revision < 0
  · simp [GetLeavesByRevisionNoProof, hneg] at h
  · rw [GetLeavesByRevisionNoProof.eq_def, if_neg hneg] at h
    cases hv : validateIndices env.hasher.size indices with
    | error e =>
      rw [hv] at h
      cases h
    | ok u =>
      cases u
      rw [hv] at h
      injection h with h2
      constructor
      · intro l hl
        rw [← h2] at hl
        simp only [List.mem_map] at hl
        obtain ⟨l0, -, rfl⟩ := hl
        rfl
      · exact h2.symm

/-- Concrete run of C6: the stored leaf at index [5] comes back with its
other fields intact and the leaf hash blanked. -/
theorem noProof_strips_leafHash_witness :
    (∀ l ∈ [({ index := [5], leafValue := [9], extraData := [3], leafHash := [] } : MapLeaf)],
       MapLeaf.leafHash l = ([] : Bytes))
    ∧ [({ index := [5], leafValue := [9], extraData := [3], leafHash := [] } : MapLeaf)]
        = (([[5]] : List Bytes).filterMap (storage0.leafAt 0)).map
            (fun l => { l with leafHash := [] }) :=
  noProof_strips_leafHash env0 storage0 [[5]] 0
    [({ index := [5], leafValue := [9], extraData := [3], leafHash := [] } : MapLeaf)] rfl

/-- C8: in every successful read-with-proof call, the revision passed to
the leaf fetch and to the batch inclusion-proof fetch are both exactly the
revision recorded inside the signed root returned in the response, which is
the latest root when the requested revision is negative and the root stored
at the requested revision otherwise. -/
theorem getLeavesByRevision_revision_consistency (env : MapServerEnv) (s : Storage)
    (indices : List Bytes) (revision : Int) (resp : GetMapLeavesResponse) (tr : ReadTrace)
    (h : getLeavesByRevisionT env s indices revision = .ok (resp, tr)) :
    tr.leafFetchRev = int64OfUint64 resp.mapRoot.mapRoot.revision
    ∧ tr.proofFetchRev = int64OfUint64 resp.mapRoot.mapRoot.revision
    ∧ (revision < 0 → s.latestSignedMapRootE = .ok resp.mapRoot)
    ∧ (0 ≤ revision → s.getSignedMapRootE revision = .ok resp.mapRoot) := by
  rw [getLeavesByRevisionT.eq_def] at h
  cases hv : validateIndices env.hasher.size indices with
  | error e =>
    rw [hv] at h
    cases h
  | ok u =>
    cases u
    rw [hv] at h
    cases hroot : (if revision < 0 then s.latestSignedMapRootE else s.getSignedMapRootE revision) with
    | error e =>
      rw [hroot] at h
      cases h
    | ok root =>
      rw [hroot] at h
      injection h with h2
      injection h2 with h3 h4
      refine ⟨?_, ?_, ?_, ?_⟩
      · rw [← h3, ← h4]
      · rw [← h3, ← h4]
      · intro hneg
        rw [if_pos hneg] at hroot
        rw [← h3]
        exact hroot
      · intro hpos
        have hneg : ¬ revision < 0 := by omega
        rw [if_neg hneg] at hroot
        rw [← h3]
        exact hroot

/-- Concrete run of C8: a read of index [5] at revision 0 fetches leaves
and proofs at the revision recorded in root0. -/
theorem getLeavesByRevision_revision_consistency_witness :
    ({ leafFetchRev := 0, proofFetchRev := 0 } : ReadTrace).leafFetchRev
        = int64OfUint64 resp0.mapRoot.mapRoot.revision
    ∧ ({ leafFetchRev := 0, proofFetchRev := 0 } : ReadTrace).proofFetchRev
        = int64OfUint64 resp0.mapRoot.mapRoot.revision
    ∧ ((0 : Int) < 0 → storage0.latestSignedMapRootE = .ok resp0.mapRoot)
    ∧ ((0 : Int) ≤ 0 → storage0.getSignedMapRootE 0 = .ok resp0.mapRoot) :=
  getLeavesByRevision_revision_consistency env0 storage0 [[5]] 0 resp0
    { leafFetchRev := 0, proofFetchRev := 0 } rfl

/-- A key found in the first part of an appended association list is
looked up there. -/
theorem lookupA_append_some {α : Type} (k : Bytes) (xs ys : List (Bytes × α)) (v : α)
    (h : lookupA k xs = some v) : lookupA k (xs ++ ys) = some v := by
  induction xs with
  | nil => cases h
  | cons p rest ih =>
    obtain ⟨k2, w⟩ := p
    by_cases hk : k2 = k
    · simp only [lookupA, if_pos hk] at h ⊢
      exact h
    · simp only [lookupA, if_neg hk] at h ⊢
      exact ih h

/-- A key absent from the first part of an appended association list is
looked up in the second. -/
theorem lookupA_append_none {α : Type} (k : Bytes) (xs ys : List (Bytes × α))
    (h : lookupA k xs = none) : lookupA k (xs ++ ys) = lookupA k ys := by
  induction xs with
  | nil => rfl
  | cons p rest ih =>
    obtain ⟨k2, w⟩ := p
    by_cases hk : k2 = k
    · simp only [lookupA, if_pos hk] at h
      cases h
    · simp only [lookupA, if_neg hk] at h ⊢
      exact ih h

/-- Looking up a present key in a list keyed by itself returns its image. -/
theorem lookupA_keyed {α : Type} (k : Bytes) (ks : List Bytes) (f : Bytes → α) (h : k ∈ ks) :
    lookupA k (ks.map (fun x => (x, f x))) = some (f k) := by
  induction ks with
  | nil => cases h
  | cons a rest ih =>
    simp only [List.map_cons]
    by_cases ha : a = k
    · subst ha
      simp [lookupA]
    · rcases List.mem_cons.mp h with h1 | h2
      · exact absurd h1.symm ha
      · simp only [lookupA, if_neg ha]
        exact ih h2

/-- A key outside the requested indices is absent from the stored-leaves
map, provided storage returns each leaf under its own index. -/
theorem lookupA_stored_not_mem (s : Storage) (rev : Int) (k : Bytes)
    (hidx : ∀ idx l, s.leafAt rev idx = some l → l.index = idx) :
    ∀ (indices : List Bytes), k ∉ indices →
      lookupA k (storedLeavesByIndex s rev indices) = none := by
  intro indices
  induction indices with
  | nil =>
    intro _
    rfl
  | cons a rest ih =>
    intro hk
    rw [storedLeavesByIndex, List.filterMap_cons]
    cases hla : s.leafAt rev a with
    | none => exact ih (fun hc => hk (List.mem_cons_of_mem _ hc))
    | some l =>
      have hl : l.index = a := hidx a l hla
      have hne : l.index ≠ k := by
        rw [hl]
        intro hc
        exact hk (hc ▸ List.mem_cons_self a rest)
      simp only [List.map_cons, lookupA, if_neg hne]
      exact ih (fun hc => hk (List.mem_cons_of_mem _ hc))

/-- Looking up a requested index in the stored-leaves map gives exactly the
storage fetch for it, provided the indices are distinct and storage returns
each leaf under its own index. -/
theorem lookupA_stored (s : Storage) (rev : Int)
    (hidx : ∀ idx l, s.leafAt rev idx = some l → l.index = idx) :
    ∀ (indices : List Bytes), indices.Nodup → ∀ k ∈ indices,
      lookupA k (storedLeavesByIndex s rev indices) = s.leafAt rev k := by
  intro indices
  induction indices with
  | nil =>
    intro _ k hk
    cases hk
  | cons a rest ih =>
    intro hnd k hk
    obtain ⟨hanr, hndr⟩ := List.nodup_cons.mp hnd
    rw [storedLeavesByIndex, List.filterMap_cons]
    cases hla : s.leafAt rev a with
    | none =>
      rcases List.mem_cons.mp hk with rfl | h2
      · rw [show ((rest.filterMap (s.leafAt rev)).map (fun l => (l.index, l)))
              = storedLeavesByIndex s rev rest from rfl,
            lookupA_stored_not_mem s rev k hidx rest hanr, hla]
      · exact ih hndr k h2
    | some l =>
      have hl : l.index = a := hidx a l hla
      simp only [List.map_cons]
      rcases List.mem_cons.mp hk with rfl | h2
      · simp only [lookupA, if_pos hl, hla]
      · have hne : l.index ≠ k := by
          rw [hl]
          intro hc
          exact hanr (hc ▸ h2)
        simp only [lookupA, if_neg hne]
        exact ih hndr k h2

/-- Looking up a requested index in the full leavesByIndex map yields the
stored leaf when present and the empty leaf otherwise. -/
theorem lookupA_build (s : Storage) (rev : Int) (indices : List Bytes)
    (hidx : ∀ idx l, s.leafAt rev idx = some l → l.index = idx)
    (hnd : indices.Nodup) (k : Bytes) (hk : k ∈ indices) :
    lookupA k (buildLeavesByIndex s rev indices)
      = some (match s.leafAt rev k with
              | some l => l
              | none => emptyMapLeaf k) := by
  have hst := lookupA_stored s rev hidx indices hnd k hk
  rw [buildLeavesByIndex]
  cases hla : s.leafAt rev k with
  | some l =>
    rw [hla] at hst
    exact lookupA_append_some k _ _ l hst
  | none =>
    rw [hla] at hst
    rw [lookupA_append_none k _ _ hst]
    have hmem : k ∈ indices.filter
        (fun idx => (lookupA idx (storedLeavesByIndex s rev indices)).isNone) := by
      refine List.mem_filter.mpr ⟨hk, ?_⟩
      rw [hst]
      rfl
    exact lookupA_keyed k _ emptyMapLeaf hmem

/-- The concrete store returns each leaf under its own index. -/
theorem storage0_leafAt_index : ∀ (rev : Int) (idx : Bytes) (l : MapLeaf),
    storage0.leafAt rev idx = some l → l.index = idx := by
  intro rev idx l h
  simp only [storage0, Storage.leafAt, leafAtRec] at h
  by_cases hc : ((0 : Nat) : Int) ≤ rev ∧ leaf0.index = idx
  · rw [if_pos hc] at h
    injection h with h2
    rw [← h2]
    exact hc.2
  · rw [if_neg hc] at h
    cases h

/-- C4: a successful read-with-proof response has exactly one inclusion
entry per requested index, in request order; the entry pairs that index and
inclusion proof with the stored leaf when one exists at the target revision
and with the empty leaf carrying the requested index otherwise; the storage
contract premise says each stored leaf is returned under its own index. -/
theorem getLeavesByRevision_response_shape (env : MapServerEnv) (s : Storage)
    (indices : List Bytes) (revision : Int) (resp : GetMapLeavesResponse) (tr : ReadTrace)
    (hidx : ∀ (rev : Int) (idx : Bytes) (l : MapLeaf), s.leafAt rev idx = some l → l.index = idx)
    (h : getLeavesByRevisionT env s indices revision = .ok (resp, tr)) :
    resp.mapLeafInclusion.length = indices.length
    ∧ ∀ (i : Nat) (hi : i < indices.length) (hj : i < resp.mapLeafInclusion.length),
        ((resp.mapLeafInclusion.get ⟨i, hj⟩).inclusion
            = env.proofAt (int64OfUint64 resp.mapRoot.mapRoot.revision) (indices.get ⟨i, hi⟩))
        ∧ ((resp.mapLeafInclusion.get ⟨i, hj⟩).leaf
            = match s.leafAt (int64OfUint64 resp.mapRoot.mapRoot.revision)
                (indices.get ⟨i, hi⟩) with
              | some l => l
              | none => emptyMapLeaf (indices.get ⟨i, hi⟩)) := by
  rw [getLeavesByRevisionT.eq_def] at h
  cases hv : validateIndices env.hasher.size indices with
  | error e =>
    rw [hv] at h
    cases h
  | ok u =>
    cases u
    rw [hv] at h
    have hnodup : indices.Nodup :=
      ((validateIndicesGo_ok_iff env.hasher.size indices [] 0).mp hv).2.1
    cases hroot : (if revision < 0 then s.latestSignedMapRootE
                   else s.getSignedMapRootE revision) with
    | error e =>
      rw [hroot] at h
      cases h
    | ok root =>
      rw [hroot] at h
      injection h with h2
      injection h2 with h3 h4
      subst h3
      constructor
      · simp
      · intro i hi hj
        simp only [List.get_eq_getElem] at hj ⊢
        simp only [List.getElem_map]
        constructor
        · show (lookupA indices[i]
              (indices.map (fun idx => (idx, env.proofAt
                (int64OfUint64 root.mapRoot.revision) idx)))).getD [] = _
          rw [lookupA_keyed indices[i] indices
            (fun idx => env.proofAt (int64OfUint64 root.mapRoot.revision) idx)
            (indices.get_mem i hi)]
          rfl
        · show (lookupA indices[i]
              (buildLeavesByIndex s (int64OfUint64 root.mapRoot.revision) indices)).getD
                (emptyMapLeaf []) = _
          rw [lookupA_build s (int64OfUint64 root.mapRoot.revision) indices
            (hidx (int64OfUint64 root.mapRoot.revision)) hnodup indices[i]
            (indices.get_mem i hi)]
          rfl

/-- Concrete run of C4: one inclusion entry comes back for the single
requested index. -/
theorem getLeavesByRevision_response_shape_witness :
    resp0.mapLeafInclusion.length = ([[5]] : List Bytes).length :=
  (getLeavesByRevision_response_shape env0 storage0 [[5]] 0 resp0
    { leafFetchRev := 0, proofFetchRev := 0 } storage0_leafAt_index rfl).1

/-- A transaction that reports write revision w reports read revision
w - 1. -/
theorem storage_readRev_of_writeRev (s : Storage) (w : Int)
    (hw : s.writeRevisionE = .ok w) : s.readRevisionE = .ok (w - 1) := by
  simp only [Storage.writeRevisionE] at hw
  simp only [Storage.readRevisionE]
  cases hlast : lastRoot? s.roots with
  | none =>
    rw [hlast] at hw
    cases hw
  | some r =>
    rw [hlast] at hw
    injection hw with h2
    have h3 : (r.mapRoot.revision : Int) = w - 1 := by omega
    show Except.ok ((r.mapRoot.revision : Int)) = Except.ok (w - 1)
    rw [h3]

/-- With no revision assertion and a working transaction, SetLeaves runs
the whole pipeline and commits a root signed at the reported write
revision. -/
theorem setLeaves_noassert_ok (env : MapServerEnv) (s : Storage) (req : SetMapLeavesRequest)
    (arrival : List NodeID) (w : Int)
    (hval : validateIndices env.hasher.size (req.leaves.map MapLeaf.index) = .ok ())
    (hw : s.writeRevisionE = .ok w) (h0 : req.revision = 0) :
    ∃ s2 : Storage,
      SetLeaves env s req arrival
        = (.ok (makeSignedMapRoot env (env.smtRoot (hkvOf env req.leaves)) w req.metadata),
           s2) := by
  have hr : s.readRevisionE = .ok (w - 1) := storage_readRev_of_writeRev s w hw
  have hgw : getWriteRevision s req.revision = .ok w := by
    simp only [getWriteRevision, hw, h0]
    rw [if_neg]
    rintro ⟨hc, -⟩
    exact hc rfl
  have hup : ∃ pc, updateTree env s (hkvOf env req.leaves) req.metadata w arrival
      = .ok (makeSignedMapRoot env (env.smtRoot (hkvOf env req.leaves)) w req.metadata,
             { setCalls := [], preloadCalls := pc,
               storedRoots := [makeSignedMapRoot env (env.smtRoot (hkvOf env req.leaves))
                 w req.metadata] }) := by
    cases hopt : (env.opts.useSingleTransaction && env.opts.useLargePreload) with
    | false =>
      refine ⟨[], ?_⟩
      simp only [updateTree, hopt, Bool.false_eq_true, if_false]
    | true =>
      refine ⟨[(w - 1,
        calcAllSiblingsParallel env.hasher.bitLen (hkvOf env req.leaves) arrival)], ?_⟩
      simp only [updateTree, hopt, if_true, doPreload, hr]
  obtain ⟨pc, hup⟩ := hup
  refine ⟨applyWrites s w
    { setCalls := (leavesWithHashes env req.leaves).map (fun l => (l.index, l)) ++ [],
      preloadCalls := pc,
      storedRoots := [makeSignedMapRoot env (env.smtRoot (hkvOf env req.leaves)) w
        req.metadata] }, ?_⟩
  simp only [SetLeaves, hval, setLeavesTxBody, hgw, hup]

/-- An error from the SetLeaves transaction body is never an
invalid-argument status: it is a revision-mismatch failed-precondition or a
propagated storage error. -/
theorem setLeavesTxBody_error_code (env : MapServerEnv) (s : Storage) (leaves : List MapLeaf)
    (hkv : List HashKeyValue) (metadata : Bytes) (assertRev : Int) (arrival : List NodeID)
    (e : MapError)
    (h : setLeavesTxBody env s leaves hkv metadata assertRev arrival = .error e) :
    e.code ≠ .invalidArgument := by
  cases hgw : getWriteRevision s assertRev with
  | error e2 =>
    simp only [setLeavesTxBody, hgw] at h
    injection h with h2
    subst h2
    cases hw : s.writeRevisionE with
    | error e3 =>
      simp only [getWriteRevision, hw] at hgw
      injection hgw with h3
      rw [← h3]
      simp [MapError.code]
    | ok wr =>
      simp only [getWriteRevision, hw] at hgw
      by_cases hc : assertRev ≠ 0 ∧ wr ≠ assertRev
      · rw [if_pos hc] at hgw
        injection hgw with h3
        rw [← h3]
        simp [MapError.code]
      · rw [if_neg hc] at hgw
        cases hgw
  | ok wr =>
    simp only [setLeavesTxBody, hgw] at h
    cases hup : updateTree env s hkv metadata wr arrival with
    | error e2 =>
      simp only [hup] at h
      injection h with h2
      subst h2
      cases hpre : (if env.opts.useSingleTransaction && env.opts.useLargePreload then
          doPreload s env.hasher.bitLen hkv arrival else .ok []) with
      | error e3 =>
        simp only [updateTree, hpre] at hup
        injection hup with h3
        subst h3
        by_cases hopt : (env.opts.useSingleTransaction && env.opts.useLargePreload) = true
        · rw [if_pos hopt] at hpre
          cases hr : s.readRevisionE with
          | error e4 =>
            simp only [doPreload, hr] at hpre
            injection hpre with h4
            rw [← h4]
            simp [MapError.code]
          | ok rr =>
            simp only [doPreload, hr] at hpre
            cases hpre
        · rw [if_neg hopt] at hpre
          cases hpre
      | ok pc =>
        simp only [updateTree, hpre] at hup
        cases hup
    | ok pr =>
      obtain ⟨newRoot, wri⟩ := pr
      simp only [hup] at h
      cases h

/-- C2: a non-zero expected revision differing from the write revision of
the transaction makes SetLeaves fail failed-precondition with the store unchanged
(no new signed root); an expected revision of zero is no assertion and the
write proceeds at the reported write revision. -/
theorem setLeaves_expectedRevision (env : MapServerEnv) (s : Storage)
    (req : SetMapLeavesRequest) (arrival : List NodeID) (w : Int)
    (hval : validateIndices env.hasher.size (req.leaves.map MapLeaf.index) = .ok ())
    (hw : s.writeRevisionE = .ok w) :
    (req.revision ≠ 0 → req.revision ≠ w →
       SetLeaves env s req arrival = (.error (.revisionMismatch req.revision), s)
       ∧ (MapError.revisionMismatch req.revision).code = .failedPrecondition)
    ∧ (req.revision = 0 →
       getWriteRevision s 0 = .ok w
       ∧ ∃ s2 : Storage,
           SetLeaves env s req arrival
             = (.ok (makeSignedMapRoot env (env.smtRoot (hkvOf env req.leaves)) w
                 req.metadata), s2)) := by
  constructor
  · intro h1 h2
    have hgw : getWriteRevision s req.revision = .error (.revisionMismatch req.revision) := by
      simp only [getWriteRevision, hw]
      rw [if_pos ⟨h1, fun hc => h2 hc.symm⟩]
    constructor
    · simp only [SetLeaves, hval, setLeavesTxBody, hgw]
    · rfl
  · intro h0
    constructor
    · simp only [getWriteRevision, hw]
      rw [if_neg]
      rintro ⟨hc, -⟩
      exact hc rfl
    · exact setLeaves_noassert_ok env s req arrival w hval hw h0

/-- Concrete run of C2: expecting revision 5 when the transaction writes at
revision 1 fails failed-precondition and stores nothing. -/
theorem setLeaves_expectedRevision_witness :
    SetLeaves env0 storage0 { mapId := 7, leaves := [], metadata := [], revision := 5 } []
      = (.error (.revisionMismatch 5), storage0)
    ∧ (MapError.revisionMismatch 5).code = .failedPrecondition :=
  (setLeaves_expectedRevision env0 storage0
      { mapId := 7, leaves := [], metadata := [], revision := 5 } [] 1 rfl rfl).1
    (by decide) (by decide)

/-- C10: an empty SetLeaves batch is not rejected: validation accepts zero
indices, an error can never carry the invalid-argument status, and with a
working transaction the empty batch runs the full write pipeline and
commits a new signed root. -/
theorem setLeaves_emptyBatch :
    (∀ sz : Nat, validateIndices sz [] = .ok ())
    ∧ (∀ (env : MapServerEnv) (s : Storage) (req : SetMapLeavesRequest)
         (arrival : List NodeID) (e : MapError), req.leaves = [] →
         (SetLeaves env s req arrival).1 = .error e → e.code ≠ .invalidArgument)
    ∧ (∀ (env : MapServerEnv) (s : Storage) (req : SetMapLeavesRequest)
         (arrival : List NodeID) (w : Int), req.leaves = [] → req.revision = 0 →
         s.writeRevisionE = .ok w →
         ∃ s2 : Storage, SetLeaves env s req arrival
           = (.ok (makeSignedMapRoot env (env.smtRoot []) w req.metadata), s2)) := by
  refine ⟨fun sz => rfl, ?_, ?_⟩
  · intro env s req arrival e hleaves h
    have hval : validateIndices env.hasher.size (req.leaves.map MapLeaf.index) = .ok () := by
      rw [hleaves]
      rfl
    cases hbody : setLeavesTxBody env s (leavesWithHashes env req.leaves)
        (hkvOf env req.leaves) req.metadata req.revision arrival with
    | error e2 =>
      have hset : SetLeaves env s req arrival = (.error e2, s) := by
        simp only [SetLeaves, hval, hbody]
      rw [hset] at h
      injection h with h2
      subst h2
      exact setLeavesTxBody_error_code env s _ _ _ _ _ _ hbody
    | ok tri =>
      obtain ⟨newRoot, wri, wr⟩ := tri
      have hset : SetLeaves env s req arrival = (.ok newRoot, applyWrites s wri wr) := by
        simp only [SetLeaves, hval, hbody]
      rw [hset] at h
      cases h
  · intro env s req arrival w hleaves h0 hw
    have hval : validateIndices env.hasher.size (req.leaves.map MapLeaf.index) = .ok () := by
      rw [hleaves]
      rfl
    obtain ⟨s2, hs2⟩ := setLeaves_noassert_ok env s req arrival w hval hw h0
    have hkvnil : hkvOf env req.leaves = [] := by
      rw [hleaves]
      rfl
    rw [hkvnil] at hs2
    exact ⟨s2, hs2⟩

/-- Concrete run of C10: the empty batch on a working store commits a new
root at write revision 1. -/
theorem setLeaves_emptyBatch_witness :
    ∃ s2 : Storage,
      SetLeaves env0 storage0 { mapId := 7, leaves := [], metadata := [], revision := 0 } []
        = (.ok (makeSignedMapRoot env0 (env0.smtRoot []) 1 ([] : Bytes)), s2) :=
  setLeaves_emptyBatch.2.2 env0 storage0
    { mapId := 7, leaves := [], metadata := [], revision := 0 } [] 1 rfl rfl rfl

/-- An id is kept by the deduplicating consumer exactly when it arrived and
was not already seen. -/
theorem mem_dedupConsume (a : NodeID) (l : List NodeID) :
    ∀ seen, a ∈ dedupConsume seen l ↔ a ∈ l ∧ a ∉ seen := by
  induction l with
  | nil =>
    intro seen
    simp [dedupConsume]
  | cons n rest ih =>
    intro seen
    by_cases hn : n ∈ seen
    · simp only [dedupConsume, if_pos hn]
      rw [ih seen]
      constructor
      · rintro ⟨h1, h2⟩
        exact ⟨List.mem_cons_of_mem _ h1, h2⟩
      · rintro ⟨h1, h2⟩
        rcases List.mem_cons.mp h1 with rfl | h3
        · exact absurd hn h2
        · exact ⟨h3, h2⟩
    · simp only [dedupConsume, if_neg hn]
      constructor
      · intro hmem
        rcases List.mem_cons.mp hmem with rfl | h3
        · exact ⟨List.mem_cons_self _ _, hn⟩
        · obtain ⟨h4, h5⟩ := (ih (n :: seen)).mp h3
          exact ⟨List.mem_cons_of_mem _ h4, fun hc => h5 (List.mem_cons_of_mem _ hc)⟩
      · rintro ⟨h1, h2⟩
        rcases List.mem_cons.mp h1 with rfl | h3
        · exact List.mem_cons_self _ _
        · by_cases ha : a = n
          · rw [ha]
            exact List.mem_cons_self _ _
          · refine List.mem_cons_of_mem _ ((ih (n :: seen)).mpr ⟨h3, fun hc => ?_⟩)
            rcases List.mem_cons.mp hc with h4 | h5
            · exact ha h4
            · exact h2 h5

/-- The deduplicating consumer emits each distinct id at most once. -/
theorem dedupConsume_nodup (l : List NodeID) : ∀ seen, (dedupConsume seen l).Nodup := by
  induction l with
  | nil =>
    intro seen
    simp [dedupConsume]
  | cons n rest ih =>
    intro seen
    by_cases hn : n ∈ seen
    · simp only [dedupConsume, if_pos hn]
      exact ih seen
    · simp only [dedupConsume, if_neg hn]
      refine List.nodup_cons.mpr ⟨?_, ih (n :: seen)⟩
      rw [mem_dedupConsume]
      rintro ⟨-, hc⟩
      exact hc (List.mem_cons_self _ _)

/-- The set of ids the consumer emits is the set of ids that arrived. -/
theorem dedupConsume_toFinset (l : List NodeID) :
    (dedupConsume [] l).toFinset = l.toFinset := by
  ext a
  simp only [List.mem_toFinset, mem_dedupConsume]
  simp

/-- C7: updateTree preloads exactly when both the single-transaction and
large-preload options are set; the preload is a single get-merkle-nodes
call at the read revision of the transaction whose node-id argument holds each
distinct sibling id of the input batch exactly once, and its id set equals
the union of the per-key sibling ids whatever arrival order the channel
produced (any permutation of the produced ids). -/
theorem updateTree_preload (env : MapServerEnv) (s : Storage) (hkv : List HashKeyValue)
    (metadata : Bytes) (rev : Int) (arrival : List NodeID) (rr : Int)
    (harr : arrival.Perm (allSiblings hkv)) (hrr : s.readRevisionE = .ok rr) :
    (env.opts.useSingleTransaction = true → env.opts.useLargePreload = true →
       updateTree env s hkv metadata rev arrival
         = .ok (makeSignedMapRoot env (env.smtRoot hkv) rev metadata,
                { setCalls := [], preloadCalls := [(rr, dedupConsume [] arrival)],
                  storedRoots := [makeSignedMapRoot env (env.smtRoot hkv) rev metadata] })
       ∧ (dedupConsume [] arrival).Nodup
       ∧ (dedupConsume [] arrival).toFinset = (allSiblings hkv).toFinset)
    ∧ (¬(env.opts.useSingleTransaction = true ∧ env.opts.useLargePreload = true) →
       updateTree env s hkv metadata rev arrival
         = .ok (makeSignedMapRoot env (env.smtRoot hkv) rev metadata,
                { setCalls := [], preloadCalls := [],
                  storedRoots := [makeSignedMapRoot env (env.smtRoot hkv) rev metadata] })) := by
  constructor
  · intro h1 h2
    have hopt : (env.opts.useSingleTransaction && env.opts.useLargePreload) = true := by
      rw [h1, h2]
      rfl
    refine ⟨?_, dedupConsume_nodup arrival [], ?_⟩
    · simp only [updateTree, hopt, if_true, doPreload, hrr, calcAllSiblingsParallel]
    · rw [dedupConsume_toFinset]
      ext a
      simp only [List.mem_toFinset]
      exact harr.mem_iff
  · intro hno
    have hopt : (env.opts.useSingleTransaction && env.opts.useLargePreload) = false := by
      cases hu : env.opts.useSingleTransaction with
      | false => rfl
      | true =>
        cases hl : env.opts.useLargePreload with
        | false => rfl
        | true => exact absurd ⟨hu, hl⟩ hno
    simp only [updateTree, hopt, Bool.false_eq_true, if_false]

/-- Concrete run of C7: with both options set, one get-merkle-nodes call is
issued at read revision 0 with the deduplicated sibling ids of the batch. -/
theorem updateTree_preload_witness :
    updateTree envPreload storage0 hkv0 [] 1 (allSiblings hkv0)
      = .ok (makeSignedMapRoot envPreload (envPreload.smtRoot hkv0) 1 [],
             { setCalls := [],
               preloadCalls := [(0, dedupConsume [] (allSiblings hkv0))],
               storedRoots := [makeSignedMapRoot envPreload (envPreload.smtRoot hkv0) 1 []] }) :=
  ((updateTree_preload envPreload storage0 hkv0 [] 1 (allSiblings hkv0) 0
      (List.Perm.refl _) rfl).1 rfl rfl).1
